/-
Verification of the manifold geometry engine of this repository (the
Oblique, Positive and positive-definite manifold families) against its
specification.  Numeric arrays are embedded as real (respectively
real-or-complex) matrices indexed by `Fin`; the batched product index `k`
acts slice-wise in the source, so operations are embedded on one slice.
Helpers imported from `pymanopt.tools.multi` and the abstract base class in
`pymanopt.manifolds.manifold` are not part of the repository files under
review; they are modelled from the specification and marked as such.
-/
import Mathlib

open scoped Matrix BigOperators ComplexOrder

noncomputable section

/-! ## Oblique manifold (`pymanopt/manifolds/oblique.py`)

Points are `m × n` real matrices; every operation works per column. -/

/-- `(A * B).sum(0)`: the columnwise dot product of two `m × n` matrices,
one scalar per column `j`. -/
def colDot {m n : ℕ} (A B : Matrix (Fin m) (Fin n) ℝ) (j : Fin n) : ℝ :=
  ∑ i, A i j * B i j

/-- `np.sqrt((A**2).sum(0))`: the Euclidean norm of column `j`. -/
def colNorm {m n : ℕ} (A : Matrix (Fin m) (Fin n) ℝ) (j : Fin n) : ℝ :=
  Real.sqrt (∑ i, A i j ^ 2)

/-- `np.linalg.norm(A)` with no axis argument: the Frobenius norm of the
whole matrix. -/
def frobeniusNorm {m n : ℕ} (A : Matrix (Fin m) (Fin n) ℝ) : ℝ :=
  Real.sqrt (∑ i, ∑ j, A i j ^ 2)

/-- `Oblique.projection`: `vector - point * (point * vector).sum(0)`,
subtracting the radial component of each column. -/
def obliqueProjection {m n : ℕ} (X V : Matrix (Fin m) (Fin n) ℝ) :
    Matrix (Fin m) (Fin n) ℝ :=
  Matrix.of fun i j => V i j - X i j * colDot X V j

/-- numpy's normalized `sinc`: `sin(pi x) / (pi x)`, with the removable
singularity at `x = 0` filled by `1`. -/
def npSinc (x : ℝ) : ℝ :=
  if x = 0 then 1 else Real.sin (Real.pi * x) / (Real.pi * x)

/-- `Oblique.exp`: per column, `cos(norm) * x + sinc(norm / pi) * u` where
`norm` is the Euclidean norm of the tangent column. -/
def obliqueExp {m n : ℕ} (X U : Matrix (Fin m) (Fin n) ℝ) :
    Matrix (Fin m) (Fin n) ℝ :=
  Matrix.of fun i j =>
    X i j * Real.cos (colNorm U j) + U i j * npSinc (colNorm U j / Real.pi)

/-- `Oblique._normalize_columns`: divide every column by its Euclidean
norm. -/
def normalizeColumns {m n : ℕ} (A : Matrix (Fin m) (Fin n) ℝ) :
    Matrix (Fin m) (Fin n) ℝ :=
  Matrix.of fun i j => A i j / colNorm A j

/-- `Oblique.retraction`: normalize the columns of `point + tangent`. -/
def obliqueRetraction {m n : ℕ} (X U : Matrix (Fin m) (Fin n) ℝ) :
    Matrix (Fin m) (Fin n) ℝ :=
  normalizeColumns (X + U)

/-- The in-place update `XY[XY > 1] = 1` of `Oblique.dist`, acting on one
scalar: values above `1` are replaced by `1`, everything else is kept. -/
def npClipHigh (x : ℝ) : ℝ :=
  if 1 < x then 1 else x

/-- The argument handed to `np.arccos` inside `Oblique.dist` for column
`j`: the columnwise dot product after the `XY[XY > 1] = 1` update. -/
def obliqueDistArg {m n : ℕ} (A B : Matrix (Fin m) (Fin n) ℝ) (j : Fin n) : ℝ :=
  npClipHigh (colDot A B j)

/-- `Oblique.dist`: the Euclidean norm of the vector of arccosines of the
(upper-clipped) columnwise dot products. -/
def obliqueDist {m n : ℕ} (A B : Matrix (Fin m) (Fin n) ℝ) : ℝ :=
  Real.sqrt (∑ j, Real.arccos (obliqueDistArg A B j) ^ 2)

/-- `Oblique.random_tangent_vector` as a function of the underlying normal
draw `D`: project the draw onto the tangent space at `X`, then divide by
the Frobenius norm of the projection. -/
def obliqueRandomTangentVector {m n : ℕ} (X D : Matrix (Fin m) (Fin n) ℝ) :
    Matrix (Fin m) (Fin n) ℝ :=
  Matrix.of fun i j =>
    obliqueProjection X D i j / frobeniusNorm (obliqueProjection X D)

/-- `Oblique.random_point` as a function of the underlying normal draw:
normalize the columns of the draw. -/
def obliqueRandomPoint {m n : ℕ} (D : Matrix (Fin m) (Fin n) ℝ) :
    Matrix (Fin m) (Fin n) ℝ :=
  normalizeColumns D

/-- `Oblique.transport`: project the carried tangent vector onto the
tangent space at the destination point. -/
def obliqueTransport {m n : ℕ} (Xa Xb U : Matrix (Fin m) (Fin n) ℝ) :
    Matrix (Fin m) (Fin n) ℝ :=
  obliqueProjection Xb U

/-- `Oblique.zero_vector`: `np.zeros((m, n))`. -/
def obliqueZeroVector (m n : ℕ) : Matrix (Fin m) (Fin n) ℝ :=
  0

/-- The Oblique membership invariant (spec section 3): every column has
unit Euclidean norm. -/
def obliqueInvariant {m n : ℕ} (X : Matrix (Fin m) (Fin n) ℝ) : Prop :=
  ∀ j, colNorm X j = 1

/-- Membership of `U` in the tangent space at `X`: every column of `U` is
orthogonal to the matching column of `X`. -/
def obliqueIsTangent {m n : ℕ} (X U : Matrix (Fin m) (Fin n) ℝ) : Prop :=
  ∀ j, colDot X U j = 0

/-! ## Positive manifold (`pymanopt/manifolds/positive.py`)

Points are `m × n` strictly positive real matrices (one slice of the
`k`-fold product); all operations are elementwise. -/

/-- `Positive.projection`: the identity (the tangent space is the full
ambient space). -/
def positiveProjection {m n : ℕ} (X V : Matrix (Fin m) (Fin n) ℝ) :
    Matrix (Fin m) (Fin n) ℝ :=
  V

/-- `Positive.exp`: `point * np.exp(tangent_vector / point)` elementwise. -/
def positiveExp {m n : ℕ} (X U : Matrix (Fin m) (Fin n) ℝ) :
    Matrix (Fin m) (Fin n) ℝ :=
  Matrix.of fun i j => X i j * Real.exp (U i j / X i j)

/-- `Positive.retraction`: the class attribute alias `retraction = exp`. -/
def positiveRetraction {m n : ℕ} (X U : Matrix (Fin m) (Fin n) ℝ) :
    Matrix (Fin m) (Fin n) ℝ :=
  positiveExp X U

/-- `Positive.log`: `point_a * (np.log(point_b) - np.log(point_a))`. -/
def positiveLog {m n : ℕ} (Xa Xb : Matrix (Fin m) (Fin n) ℝ) :
    Matrix (Fin m) (Fin n) ℝ :=
  Matrix.of fun i j => Xa i j * (Real.log (Xb i j) - Real.log (Xa i j))

/-- `Positive.random_point` as a function of the underlying normal draw
`G`: `np.exp` of the draw, elementwise. -/
def positiveRandomPoint {m n : ℕ} (G : Matrix (Fin m) (Fin n) ℝ) :
    Matrix (Fin m) (Fin n) ℝ :=
  Matrix.of fun i j => Real.exp (G i j)

/-- `Positive._transporter` (the default transport): return the tangent
vector unchanged. -/
def positiveTransporter {m n : ℕ} (Xa Xb U : Matrix (Fin m) (Fin n) ℝ) :
    Matrix (Fin m) (Fin n) ℝ :=
  U

/-- `Positive._parallel_transport`: `tangent_vector_a * point_b / point_a`
elementwise. -/
def positiveParallelTransport {m n : ℕ} (Xa Xb U : Matrix (Fin m) (Fin n) ℝ) :
    Matrix (Fin m) (Fin n) ℝ :=
  Matrix.of fun i j => U i j * Xb i j / Xa i j

/-- The Positive membership invariant (spec section 3): every entry is
strictly positive. -/
def positiveInvariant {m n : ℕ} (X : Matrix (Fin m) (Fin n) ℝ) : Prop :=
  ∀ i j, 0 < X i j

/-- `np.zeros` called with the entries of a shape tuple as separate
positional arguments, as `np.zeros(*point.shape)` does.  With a single
argument it builds a 1-D zero array; with two or more, the second
positional argument is the `dtype` parameter and a plain Python integer is
not a valid dtype, so the call raises a TypeError. -/
def npZerosVarargs (args : List ℕ) : Except String (List ℝ) :=
  match args with
  | [d] => Except.ok (List.replicate d 0)
  | _ => Except.error "Cannot interpret a Python int as a data type"

/-- `Positive.zero_vector`: `np.zeros(*point.shape)`, applied to the shape
of the point (`[m, n]` for a single slice, `[k, m, n]` for a product). -/
def positiveZeroVector (pointShape : List ℕ) : Except String (List ℝ) :=
  npZerosVarargs pointShape

/-! ## Positive-definite family (`src/pymanopt/manifolds/positive_definite.py`)

Points are `n × n` matrices over `ℝ` (`SymmetricPositiveDefinite`) or `ℂ`
(the Hermitian variants); the field is kept as a parameter `𝕜` with
`RCLike 𝕜` so one embedding covers both dtypes.  The batched helpers that
these methods import from `pymanopt.tools.multi` are not part of the files
under review and are modelled from the specification (sections 2 and 4.5). -/

/-- Modelled from the spec: `multihconj` of `pymanopt.tools.multi` (absent
from the reviewed files) is the batched conjugate transpose. -/
def multihconj {𝕜 : Type} [RCLike 𝕜] {n : ℕ} (A : Matrix (Fin n) (Fin n) 𝕜) :
    Matrix (Fin n) (Fin n) 𝕜 :=
  Aᴴ

/-- Modelled from the spec: `multitransp` of `pymanopt.tools.multi` (absent
from the reviewed files) is the batched transpose. -/
def multitransp {𝕜 : Type} [RCLike 𝕜] {n : ℕ} (A : Matrix (Fin n) (Fin n) 𝕜) :
    Matrix (Fin n) (Fin n) 𝕜 :=
  Aᵀ

/-- Modelled from the spec: `multiherm` of `pymanopt.tools.multi` (absent
from the reviewed files) takes the Hermitian part `0.5 * (A + Aᴴ)`
("symmetrize/Hermitize"; section 4.5: the projection is the
symmetric/Hermitian part of the ambient vector). -/
def multiherm {𝕜 : Type} [RCLike 𝕜] {n : ℕ} (A : Matrix (Fin n) (Fin n) 𝕜) :
    Matrix (Fin n) (Fin n) 𝕜 :=
  (2⁻¹ : ℝ) • (A + multihconj A)

/-- Modelled from the spec: `multiexpm` of `pymanopt.tools.multi` (absent
from the reviewed files) is the batched matrix exponential. -/
def multiexpm {𝕜 : Type} [RCLike 𝕜] {n : ℕ} (A : Matrix (Fin n) (Fin n) 𝕜) :
    Matrix (Fin n) (Fin n) 𝕜 :=
  NormedSpace.exp ℝ A

/-- `np.linalg.solve(A, B)`: the solution `A⁻¹ * B` of `A X = B` for
invertible `A`. -/
def npSolve {𝕜 : Type} [RCLike 𝕜] {n : ℕ} (A B : Matrix (Fin n) (Fin n) 𝕜) :
    Matrix (Fin n) (Fin n) 𝕜 :=
  A⁻¹ * B

/-- `_PositiveDefiniteBase.projection`: the Hermitian part of the ambient
vector. -/
def pdProjection {𝕜 : Type} [RCLike 𝕜] {n : ℕ} (X V : Matrix (Fin n) (Fin n) 𝕜) :
    Matrix (Fin n) (Fin n) 𝕜 :=
  multiherm V

/-- `_PositiveDefiniteBase.exp`: `point @ multiexpm(solve(point, tangent))`. -/
def pdExp {𝕜 : Type} [RCLike 𝕜] {n : ℕ} (X U : Matrix (Fin n) (Fin n) 𝕜) :
    Matrix (Fin n) (Fin n) 𝕜 :=
  X * multiexpm (npSolve X U)

/-- `_PositiveDefiniteBase.retraction`:
`multiherm(point + tangent + tangent @ solve(point, tangent) / 2)`. -/
def pdRetraction {𝕜 : Type} [RCLike 𝕜] {n : ℕ} (X U : Matrix (Fin n) (Fin n) 𝕜) :
    Matrix (Fin n) (Fin n) 𝕜 :=
  multiherm (X + U + (2⁻¹ : ℝ) • (U * npSolve X U))

/-- `_PositiveDefiniteBase.transport`: return the tangent vector
unchanged. -/
def pdTransport {𝕜 : Type} [RCLike 𝕜] {n : ℕ} (Xa Xb U : Matrix (Fin n) (Fin n) 𝕜) :
    Matrix (Fin n) (Fin n) 𝕜 :=
  U

/-- `_PositiveDefiniteBase.zero_vector` (and the complex-typed override of
`HermitianPositiveDefinite`): an `n × n` zero matrix. -/
def pdZeroVector {𝕜 : Type} [RCLike 𝕜] (n : ℕ) : Matrix (Fin n) (Fin n) 𝕜 :=
  0

/-- `random_point` of the positive-definite family as a function of the
underlying draws: eigenvalues `d = 1 + uniform` (shape `(n, 1)`, broadcast
over rows) and the QR factor `q` of a random matrix, combined as
`q @ (d * qᴴ)`.  The broadcast `d * qᴴ` scales row `i` of `qᴴ` by `d i`.
Modelled from the spec insofar as `multiqr` (absent from the reviewed
files) supplies the factor `q`; its unitarity is a hypothesis of the
theorems below.  The real variant uses `multitransp` in place of
`multihconj`, which coincides with it on real matrices. -/
def pdRandomPoint {𝕜 : Type} [RCLike 𝕜] {n : ℕ} (q : Matrix (Fin n) (Fin n) 𝕜)
    (u : Fin n → ℝ) : Matrix (Fin n) (Fin n) 𝕜 :=
  q * Matrix.of fun i j => ((1 + u i : ℝ) : 𝕜) * multihconj q i j

/-- `_PositiveDefiniteBase.random_point` as inherited by
`SymmetricPositiveDefinite` and applied to real draws: `q @ (d * multitransp(q))`
with `multitransp` in place of `multihconj`. -/
def pdBaseRandomPoint {n : ℕ} (q : Matrix (Fin n) (Fin n) ℝ) (u : Fin n → ℝ) :
    Matrix (Fin n) (Fin n) ℝ :=
  q * Matrix.of fun i j => (1 + u i) * multitransp q i j

/-- `np.linalg.det(e) ** (1 / n)` for the matrices it is applied to here
(Hermitian positive definite, hence positive real determinant): the real
`n`-th root of the determinant, on which the complex principal power of
the source agrees. -/
def npDetRoot {𝕜 : Type} [RCLike 𝕜] {n : ℕ} (e : Matrix (Fin n) (Fin n) 𝕜) : ℝ :=
  RCLike.re e.det ^ ((n : ℝ)⁻¹)

/-- The determinant renormalization step `e / det(e) ** (1/n)` shared by
`SpecialHermitianPositiveDefinite.random_point`, `exp` and `retraction`. -/
def detNormalize {𝕜 : Type} [RCLike 𝕜] {n : ℕ} (e : Matrix (Fin n) (Fin n) 𝕜) :
    Matrix (Fin n) (Fin n) 𝕜 :=
  (npDetRoot e)⁻¹ • e

/-- `SpecialHermitianPositiveDefinite.projection`: take the Hermitian part
(the HPD projection), then remove the trace component
`(1/n) * re(trace(solve(point, vector))) * point`. -/
def shpdProjection {𝕜 : Type} [RCLike 𝕜] {n : ℕ} (X V : Matrix (Fin n) (Fin n) 𝕜) :
    Matrix (Fin n) (Fin n) 𝕜 :=
  multiherm V - (RCLike.re (npSolve X (multiherm V)).trace / (n : ℝ)) • X

/-- `SpecialHermitianPositiveDefinite.exp`: the HPD exponential followed by
determinant renormalization. -/
def shpdExp {𝕜 : Type} [RCLike 𝕜] {n : ℕ} (X U : Matrix (Fin n) (Fin n) 𝕜) :
    Matrix (Fin n) (Fin n) 𝕜 :=
  detNormalize (pdExp X U)

/-- `SpecialHermitianPositiveDefinite.retraction`: the HPD retraction
followed by determinant renormalization. -/
def shpdRetraction {𝕜 : Type} [RCLike 𝕜] {n : ℕ} (X U : Matrix (Fin n) (Fin n) 𝕜) :
    Matrix (Fin n) (Fin n) 𝕜 :=
  detNormalize (pdRetraction X U)

/-- `SpecialHermitianPositiveDefinite.random_point`: the HPD random point
followed by determinant renormalization. -/
def shpdRandomPoint {𝕜 : Type} [RCLike 𝕜] {n : ℕ} (q : Matrix (Fin n) (Fin n) 𝕜)
    (u : Fin n → ℝ) : Matrix (Fin n) (Fin n) 𝕜 :=
  detNormalize (pdRandomPoint q u)

/-- `SpecialHermitianPositiveDefinite.transport`: project the carried
vector with the HPD projection at the destination, then with the SHPD
projection at the destination. -/
def shpdTransport {𝕜 : Type} [RCLike 𝕜] {n : ℕ} (Xa Xb U : Matrix (Fin n) (Fin n) 𝕜) :
    Matrix (Fin n) (Fin n) 𝕜 :=
  shpdProjection Xb (pdProjection Xb U)

/-- Python-level failure signals relevant to the reviewed methods: the
explicit unsupported-operation signal, the numerical-linear-algebra
failure, and the failure of assigning a read-only attribute. -/
inductive PyError where
  | notImplementedError : PyError
  | linAlgError : PyError
  | attributeError : PyError
deriving DecidableEq

/-- Modelled from the spec: the decorator `_raise_not_implemented_error`
of `pymanopt.manifolds.manifold` (absent from the reviewed files) wraps a
method so that every invocation fails immediately with the explicit
unsupported-operation signal (section 7), never calling the wrapped body. -/
def raiseNotImplementedError {α β : Type} (f : α → β) : α → Except PyError β :=
  fun _ => Except.error PyError.notImplementedError

/-- The (never executed) `pass` body of
`SpecialHermitianPositiveDefinite.euclidean_to_riemannian_hessian`. -/
def shpdHessianBody {𝕜 : Type} [RCLike 𝕜] {n : ℕ}
    (args : Matrix (Fin n) (Fin n) 𝕜 × Matrix (Fin n) (Fin n) 𝕜 ×
      Matrix (Fin n) (Fin n) 𝕜 × Matrix (Fin n) (Fin n) 𝕜) :
    Option (Matrix (Fin n) (Fin n) 𝕜) :=
  none

/-- `SpecialHermitianPositiveDefinite.euclidean_to_riemannian_hessian`:
the `pass` body wrapped by `_raise_not_implemented_error`. -/
def shpdEuclideanToRiemannianHessian {𝕜 : Type} [RCLike 𝕜] {n : ℕ}
    (point eg eh tv : Matrix (Fin n) (Fin n) 𝕜) :
    Except PyError (Option (Matrix (Fin n) (Fin n) 𝕜)) :=
  raiseNotImplementedError shpdHessianBody (point, eg, eh, tv)

/-- The SPD/HPD membership invariant (spec section 3): symmetric resp.
Hermitian with all eigenvalues positive, i.e. positive definiteness. -/
def pdInvariant {𝕜 : Type} [RCLike 𝕜] {n : ℕ} (X : Matrix (Fin n) (Fin n) 𝕜) : Prop :=
  X.PosDef

/-- The SHPD membership invariant (spec section 3): Hermitian positive
definite with unit determinant. -/
def shpdInvariant {𝕜 : Type} [RCLike 𝕜] {n : ℕ} (X : Matrix (Fin n) (Fin n) 𝕜) : Prop :=
  X.PosDef ∧ X.det = 1

/-! ## The manifold descriptor and the SHPD constructor

The abstract base class `pymanopt.manifolds.manifold.Manifold` is absent
from the reviewed files; it is modelled from the specification. -/

/-- Modelled from the spec: the manifold descriptor (section 3) is an
"immutable value holding a name, an intrinsic real dimension (`dim`)";
the base class fixes `dim` at construction and exposes it as a read-only
property (section 4.1). -/
structure ManifoldDescriptor where
  name : String
  dim : ℕ

/-- Modelled from the spec: attribute assignment to the read-only `dim`
property of the immutable descriptor fails with an AttributeError (the
descriptor is an immutable value per section 3 and `dim` a property per
section 4.1; section 9 records the inconsistency of the source assignment
with this base-class dimension mechanism). -/
def setDimAttribute (d : ManifoldDescriptor) (newDim : ℕ) :
    Except PyError ManifoldDescriptor :=
  Except.error PyError.attributeError

/-- `HermitianPositiveDefinite.__init__`: the base constructor stores the
dimension `int(k * n * (n + 1))` in the descriptor. -/
def hermitianPositiveDefiniteInit (n k : ℕ) : ManifoldDescriptor :=
  { name := "Manifold of Hermitian positive definite matrices"
    dim := k * n * (n + 1) }

/-- The value `int(k * n * (n + 1) - k)` that
`SpecialHermitianPositiveDefinite.__init__` assigns to `self.dim`. -/
def shpdAssignedDim (n k : ℕ) : ℕ :=
  k * n * (n + 1) - k

/-- `SpecialHermitianPositiveDefinite.__init__`: run the HPD constructor,
then execute the attribute assignment `self.dim = int(k * n * (n + 1) - k)`. -/
def specialHermitianPositiveDefiniteInit (n k : ℕ) :
    Except PyError ManifoldDescriptor :=
  setDimAttribute (hermitianPositiveDefiniteInit n k) (shpdAssignedDim n k)

/-! ## Lemmas about the Oblique operations -/

theorem sum_sq_eq_one_of_obliqueInvariant {m n : ℕ} {X : Matrix (Fin m) (Fin n) ℝ}
    (hX : obliqueInvariant X) (j : Fin n) : ∑ i, X i j ^ 2 = 1 := by
  have h := hX j
  rw [colNorm, Real.sqrt_eq_one] at h
  exact h

theorem colDot_obliqueProjection {m n : ℕ} (X V : Matrix (Fin m) (Fin n) ℝ) (j : Fin n) :
    colDot X (obliqueProjection X V) j = colDot X V j * (1 - ∑ i, X i j ^ 2) := by
  have h : ∀ i ∈ Finset.univ, X i j * obliqueProjection X V i j
      = X i j * V i j - X i j ^ 2 * colDot X V j := by
    intro i _
    simp only [obliqueProjection, Matrix.of_apply]
    ring
  rw [colDot, Finset.sum_congr rfl h, Finset.sum_sub_distrib, ← Finset.sum_mul, colDot]
  ring

theorem colDot_obliqueProjection_eq_zero {m n : ℕ} {X : Matrix (Fin m) (Fin n) ℝ}
    (hX : obliqueInvariant X) (V : Matrix (Fin m) (Fin n) ℝ) (j : Fin n) :
    colDot X (obliqueProjection X V) j = 0 := by
  rw [colDot_obliqueProjection, sum_sq_eq_one_of_obliqueInvariant hX]
  ring

theorem colDot_obliqueRandomTangentVector {m n : ℕ} {X : Matrix (Fin m) (Fin n) ℝ}
    (hX : obliqueInvariant X) (D : Matrix (Fin m) (Fin n) ℝ) (j : Fin n) :
    colDot X (obliqueRandomTangentVector X D) j = 0 := by
  have h : ∀ i ∈ Finset.univ, X i j * obliqueRandomTangentVector X D i j
      = X i j * obliqueProjection X D i j * (frobeniusNorm (obliqueProjection X D))⁻¹ := by
    intro i _
    simp only [obliqueRandomTangentVector, Matrix.of_apply]
    ring
  rw [colDot, Finset.sum_congr rfl h, ← Finset.sum_mul]
  have h0 := colDot_obliqueProjection_eq_zero hX D j
  rw [colDot] at h0
  rw [h0, zero_mul]

theorem normalizeColumns_obliqueInvariant {m n : ℕ} {A : Matrix (Fin m) (Fin n) ℝ}
    (hA : ∀ j, colNorm A j ≠ 0) : obliqueInvariant (normalizeColumns A) := by
  intro j
  have hnn : 0 ≤ ∑ i, A i j ^ 2 := Finset.sum_nonneg fun i _ => sq_nonneg _
  have hsq : colNorm A j ^ 2 = ∑ i, A i j ^ 2 := Real.sq_sqrt hnn
  have hone : ∑ i, normalizeColumns A i j ^ 2 = 1 := by
    simp only [normalizeColumns, Matrix.of_apply, div_pow]
    rw [← Finset.sum_div, ← hsq, div_self (pow_ne_zero 2 (hA j))]
  rw [colNorm, hone, Real.sqrt_one]

theorem npSinc_zero : npSinc 0 = 1 := by
  simp [npSinc]

theorem npSinc_of_ne_zero {t : ℝ} (ht : t ≠ 0) : npSinc (t / Real.pi) = Real.sin t / t := by
  rw [npSinc, if_neg (div_ne_zero ht Real.pi_ne_zero)]
  rw [mul_comm Real.pi (t / Real.pi), div_mul_cancel₀ t Real.pi_ne_zero]

theorem obliqueExp_invariant {m n : ℕ} {X U : Matrix (Fin m) (Fin n) ℝ}
    (hX : obliqueInvariant X) (hU : obliqueIsTangent X U) :
    obliqueInvariant (obliqueExp X U) := by
  intro j
  have hUnn : 0 ≤ ∑ i, U i j ^ 2 := Finset.sum_nonneg fun i _ => sq_nonneg _
  have hXs : ∑ i, X i j ^ 2 = 1 := sum_sq_eq_one_of_obliqueInvariant hX j
  have hUs : colNorm U j ^ 2 = ∑ i, U i j ^ 2 := Real.sq_sqrt hUnn
  have hXU : ∑ i, X i j * U i j = 0 := hU j
  have key : ∑ i, obliqueExp X U i j ^ 2
      = Real.cos (colNorm U j) ^ 2 + npSinc (colNorm U j / Real.pi) ^ 2 * colNorm U j ^ 2 := by
    have h : ∀ i ∈ Finset.univ, obliqueExp X U i j ^ 2
        = Real.cos (colNorm U j) ^ 2 * X i j ^ 2
          + 2 * Real.cos (colNorm U j) * npSinc (colNorm U j / Real.pi) * (X i j * U i j)
          + npSinc (colNorm U j / Real.pi) ^ 2 * U i j ^ 2 := by
      intro i _
      simp only [obliqueExp, Matrix.of_apply]
      ring
    rw [Finset.sum_congr rfl h, Finset.sum_add_distrib, Finset.sum_add_distrib,
      ← Finset.mul_sum, ← Finset.mul_sum, ← Finset.mul_sum, hXs, hXU, hUs]
    ring
  have hval : Real.cos (colNorm U j) ^ 2
      + npSinc (colNorm U j / Real.pi) ^ 2 * colNorm U j ^ 2 = 1 := by
    rcases eq_or_ne (colNorm U j) 0 with h0 | h0
    · rw [h0, zero_div, npSinc_zero, Real.cos_zero]
      ring
    · rw [npSinc_of_ne_zero h0, div_pow, div_mul_cancel₀ _ (pow_ne_zero 2 h0)]
      exact Real.cos_sq_add_sin_sq _
  rw [colNorm, key, hval, Real.sqrt_one]

theorem obliqueRetraction_invariant {m n : ℕ} {X U : Matrix (Fin m) (Fin n) ℝ}
    (hX : obliqueInvariant X) (hU : obliqueIsTangent X U) :
    obliqueInvariant (obliqueRetraction X U) := by
  apply normalizeColumns_obliqueInvariant
  intro j
  have hXs : ∑ i, X i j ^ 2 = 1 := sum_sq_eq_one_of_obliqueInvariant hX j
  have hXU : ∑ i, X i j * U i j = 0 := hU j
  have hsum : ∑ i, (X + U) i j ^ 2 = 1 + ∑ i, U i j ^ 2 := by
    have h : ∀ i ∈ Finset.univ, (X + U) i j ^ 2
        = X i j ^ 2 + 2 * (X i j * U i j) + U i j ^ 2 := by
      intro i _
      simp only [Matrix.add_apply]
      ring
    rw [Finset.sum_congr rfl h, Finset.sum_add_distrib, Finset.sum_add_distrib,
      ← Finset.mul_sum, hXs, hXU]
    ring
  have hpos : 0 < colNorm (X + U) j := by
    rw [colNorm]
    apply Real.sqrt_pos.mpr
    rw [hsum]
    have := Finset.sum_nonneg fun i (_ : i ∈ Finset.univ) => sq_nonneg (U i j)
    linarith
  exact ne_of_gt hpos

theorem obliqueProjection_idem {m n : ℕ} {X : Matrix (Fin m) (Fin n) ℝ}
    (hX : obliqueInvariant X) (V : Matrix (Fin m) (Fin n) ℝ) :
    obliqueProjection X (obliqueProjection X V) = obliqueProjection X V := by
  ext i j
  simp only [obliqueProjection, Matrix.of_apply]
  have h0 := colDot_obliqueProjection_eq_zero hX V j
  have : colDot X (obliqueProjection X V) j = colDot X (Matrix.of fun i j =>
      V i j - X i j * colDot X V j) j := rfl
  rw [← this, h0]
  ring

theorem obliqueExp_zeroVector {m n : ℕ} (X : Matrix (Fin m) (Fin n) ℝ) :
    obliqueExp X (obliqueZeroVector m n) = X := by
  ext i j
  have h0 : colNorm (0 : Matrix (Fin m) (Fin n) ℝ) j = 0 := by
    simp [colNorm]
  simp [obliqueExp, obliqueZeroVector, h0, npSinc_zero]

/-! ## Lemmas about the Positive operations -/

theorem positiveExp_invariant {m n : ℕ} {X : Matrix (Fin m) (Fin n) ℝ}
    (hX : positiveInvariant X) (U : Matrix (Fin m) (Fin n) ℝ) :
    positiveInvariant (positiveExp X U) := by
  intro i j
  exact mul_pos (hX i j) (Real.exp_pos _)

theorem positiveRandomPoint_invariant {m n : ℕ} (G : Matrix (Fin m) (Fin n) ℝ) :
    positiveInvariant (positiveRandomPoint G) := by
  intro i j
  exact Real.exp_pos _

theorem positiveExp_zeroVector {m n : ℕ} (X : Matrix (Fin m) (Fin n) ℝ) :
    positiveExp X 0 = X := by
  ext i j
  simp [positiveExp]

/-! ## Lemmas about the positive-definite family -/

theorem conjTranspose_real_smul {𝕜 : Type} [RCLike 𝕜] {n : ℕ} (r : ℝ)
    (A : Matrix (Fin n) (Fin n) 𝕜) : (r • A)ᴴ = r • Aᴴ := by
  ext i j
  simp only [Matrix.conjTranspose_apply, Matrix.smul_apply,
    RCLike.real_smul_eq_coe_mul, RCLike.star_def, map_mul, RCLike.conj_ofReal]

theorem multiherm_isHermitian {𝕜 : Type} [RCLike 𝕜] {n : ℕ}
    (A : Matrix (Fin n) (Fin n) 𝕜) : (multiherm A).IsHermitian := by
  show (multiherm A)ᴴ = multiherm A
  rw [multiherm, multihconj, conjTranspose_real_smul,
    Matrix.conjTranspose_add, Matrix.conjTranspose_conjTranspose, add_comm]

theorem multiherm_of_isHermitian {𝕜 : Type} [RCLike 𝕜] {n : ℕ}
    {A : Matrix (Fin n) (Fin n) 𝕜} (hA : A.IsHermitian) : multiherm A = A := by
  rw [multiherm, multihconj, hA.eq, ← two_smul ℝ A, smul_smul]
  norm_num

theorem pdProjection_idem {𝕜 : Type} [RCLike 𝕜] {n : ℕ}
    (X V : Matrix (Fin n) (Fin n) 𝕜) :
    pdProjection X (pdProjection X V) = pdProjection X V :=
  multiherm_of_isHermitian (multiherm_isHermitian V)

theorem pdExp_zeroVector {𝕜 : Type} [RCLike 𝕜] {n : ℕ}
    (X : Matrix (Fin n) (Fin n) 𝕜) : pdExp X (pdZeroVector n) = X := by
  rw [pdExp, pdZeroVector, npSolve, mul_zero, multiexpm, NormedSpace.exp_zero, mul_one]

theorem posDef_conjTranspose_mul_mul {𝕜 : Type} [RCLike 𝕜] {n : ℕ}
    {M B : Matrix (Fin n) (Fin n) 𝕜} (hM : M.PosDef) (hB : IsUnit B) :
    (Bᴴ * M * B).PosDef := by
  refine ⟨Matrix.isHermitian_conjTranspose_mul_mul B hM.1, fun x hx => ?_⟩
  have hx2 : B *ᵥ x ≠ 0 := by
    intro h
    exact hx (Matrix.mulVec_injective_iff_isUnit.mpr hB
      (h.trans (Matrix.mulVec_zero B).symm))
  simpa only [Matrix.star_mulVec, Matrix.dotProduct_mulVec, Matrix.vecMul_vecMul]
    using hM.2 (B *ᵥ x) hx2

theorem posDef_mul_mul_conjTranspose {𝕜 : Type} [RCLike 𝕜] {n : ℕ}
    {M B : Matrix (Fin n) (Fin n) 𝕜} (hM : M.PosDef) (hB : IsUnit B) :
    (B * M * Bᴴ).PosDef := by
  have hBH : IsUnit Bᴴ := by
    rw [← Matrix.star_eq_conjTranspose]
    exact hB.star
  simpa only [Matrix.conjTranspose_conjTranspose]
    using posDef_conjTranspose_mul_mul hM hBH

theorem posDef_real_smul {𝕜 : Type} [RCLike 𝕜] {n : ℕ}
    {M : Matrix (Fin n) (Fin n) 𝕜} (hM : M.PosDef) {r : ℝ} (hr : 0 < r) :
    (r • M).PosDef := by
  refine ⟨?_, fun x hx => ?_⟩
  · show (r • M)ᴴ = r • M
    rw [conjTranspose_real_smul, hM.1.eq]
  · rw [Matrix.smul_mulVec_assoc, Matrix.dotProduct_smul,
      RCLike.real_smul_eq_coe_mul]
    have hr𝕜 : (0 : 𝕜) < (r : ℝ) := by exact_mod_cast hr
    exact mul_pos hr𝕜 (hM.2 x hx)

theorem multitransp_eq_multihconj_real {n : ℕ} (A : Matrix (Fin n) (Fin n) ℝ) :
    multitransp A = multihconj A := by
  ext i j
  simp [multitransp, multihconj, Matrix.conjTranspose_apply]

theorem pdBaseRandomPoint_eq_real {n : ℕ} (q : Matrix (Fin n) (Fin n) ℝ)
    (u : Fin n → ℝ) : pdBaseRandomPoint q u = pdRandomPoint q u := by
  rw [pdBaseRandomPoint, pdRandomPoint, multitransp_eq_multihconj_real]
  congr 1

theorem multiexpm_posDef_of_isHermitian {𝕜 : Type} [RCLike 𝕜] {n : ℕ}
    {A : Matrix (Fin n) (Fin n) 𝕜} (hA : A.IsHermitian) : (multiexpm A).PosDef := by
  classical
  set V : Matrix (Fin n) (Fin n) 𝕜 := (hA.eigenvectorUnitary : Matrix (Fin n) (Fin n) 𝕜) with hV
  have hVs : V * star V = 1 := Matrix.mem_unitaryGroup_iff.mp hA.eigenvectorUnitary.2
  have hVinv : V⁻¹ = star V := Matrix.inv_eq_right_inv hVs
  have hVu : IsUnit V := by
    apply (Matrix.isUnit_iff_isUnit_det V).mpr
    apply isUnit_of_mul_eq_one _ (star V).det
    rw [← Matrix.det_mul, hVs, Matrix.det_one]
  have hdiag : NormedSpace.exp ℝ (Matrix.diagonal (RCLike.ofReal ∘ hA.eigenvalues))
      = Matrix.diagonal fun i => ((Real.exp (hA.eigenvalues i) : ℝ) : 𝕜) := by
    rw [Matrix.exp_diagonal]
    have hfun : NormedSpace.exp ℝ (RCLike.ofReal ∘ hA.eigenvalues)
        = fun i => ((Real.exp (hA.eigenvalues i) : ℝ) : 𝕜) := by
      funext i
      rw [Pi.coe_exp, Function.comp_apply, ← RCLike.ofRealAm_coe,
        ← NormedSpace.map_exp ℝ (RCLike.ofRealAm (K := 𝕜)) RCLike.continuous_ofReal,
        ← Real.exp_eq_exp_ℝ, RCLike.ofRealAm_coe]
    rw [hfun]
  have hkey : multiexpm A
      = V * Matrix.diagonal (fun i => ((Real.exp (hA.eigenvalues i) : ℝ) : 𝕜)) * Vᴴ := by
    show NormedSpace.exp ℝ A = _
    conv_lhs => rw [hA.spectral_theorem]
    rw [← hV, ← hVinv, Matrix.exp_conj ℝ V _ hVu, hdiag, hVinv,
      Matrix.star_eq_conjTranspose]
  have hpd : (Matrix.diagonal fun i => ((Real.exp (hA.eigenvalues i) : ℝ) : 𝕜)).PosDef := by
    apply Matrix.posDef_diagonal_iff.mpr
    intro i
    exact_mod_cast Real.exp_pos (hA.eigenvalues i)
  rw [hkey]
  exact posDef_mul_mul_conjTranspose hpd hVu

theorem pdExp_posDef {𝕜 : Type} [RCLike 𝕜] {n : ℕ}
    {X U : Matrix (Fin n) (Fin n) 𝕜} (hX : X.PosDef) (hU : U.IsHermitian) :
    (pdExp X U).PosDef := by
  classical
  set R := hX.posSemidef.sqrt with hRdef
  have hRps : R.PosSemidef := hX.posSemidef.posSemidef_sqrt
  have hRH : Rᴴ = R := hRps.isHermitian.eq
  have hRR : R * R = X := hX.posSemidef.sqrt_mul_self
  have hdet : IsUnit R.det := by
    have hXdet : IsUnit X.det := (Matrix.isUnit_iff_isUnit_det X).mp hX.isUnit
    rw [← hRR, Matrix.det_mul] at hXdet
    exact isUnit_of_mul_isUnit_left hXdet
  have hRu : IsUnit R := (Matrix.isUnit_iff_isUnit_det R).mpr hdet
  have hRinvH : (R⁻¹)ᴴ = R⁻¹ := by rw [Matrix.conjTranspose_nonsing_inv, hRH]
  set S := R⁻¹ * U * R⁻¹ with hSdef
  have hSH : S.IsHermitian := by
    show Sᴴ = S
    rw [hSdef, Matrix.conjTranspose_mul, Matrix.conjTranspose_mul, hRinvH, hU.eq,
      Matrix.mul_assoc]
  have h1 : npSolve X U = R⁻¹ * S * R := by
    rw [npSolve, ← hRR, Matrix.mul_inv_rev, hSdef]
    calc R⁻¹ * R⁻¹ * U = R⁻¹ * (R⁻¹ * U) * (R⁻¹ * R) := by
          rw [Matrix.nonsing_inv_mul R hdet, mul_one, Matrix.mul_assoc]
      _ = R⁻¹ * (R⁻¹ * U * R⁻¹) * R := by
          simp only [Matrix.mul_assoc]
  have hkey : pdExp X U = R * multiexpm S * Rᴴ := by
    rw [pdExp, h1, multiexpm, Matrix.exp_conj' ℝ R S hRu, ← multiexpm, hRH, ← hRR]
    calc R * R * (R⁻¹ * multiexpm S * R)
        = R * ((R * R⁻¹) * (multiexpm S * R)) := by simp only [Matrix.mul_assoc]
      _ = R * multiexpm S * R := by
          rw [Matrix.mul_nonsing_inv R hdet, one_mul, Matrix.mul_assoc]
  rw [hkey]
  exact posDef_mul_mul_conjTranspose (multiexpm_posDef_of_isHermitian hSH) hRu

theorem pdRetraction_eq_half_congruence {𝕜 : Type} [RCLike 𝕜] {n : ℕ}
    {X U : Matrix (Fin n) (Fin n) 𝕜} (hX : X.PosDef) (hU : U.IsHermitian) :
    pdRetraction X U = (2⁻¹ : ℝ) • (X + (X + U) * X⁻¹ * (X + U)ᴴ) := by
  classical
  have hdet : IsUnit X.det := (Matrix.isUnit_iff_isUnit_det X).mp hX.isUnit
  have hXH : Xᴴ = X := hX.isHermitian.eq
  have hXinvH : (X⁻¹)ᴴ = X⁻¹ := by rw [Matrix.conjTranspose_nonsing_inv, hXH]
  have hXU_H : (X + U)ᴴ = X + U := by rw [Matrix.conjTranspose_add, hXH, hU.eq]
  have hinner : (X + U + (2⁻¹ : ℝ) • (U * npSolve X U)).IsHermitian := by
    show _ᴴ = _
    rw [Matrix.conjTranspose_add, Matrix.conjTranspose_add, conjTranspose_real_smul,
      hXH, hU.eq, npSolve, Matrix.conjTranspose_mul, Matrix.conjTranspose_mul,
      hXinvH, hU.eq, Matrix.mul_assoc]
  have hherm : pdRetraction X U = X + U + (2⁻¹ : ℝ) • (U * npSolve X U) :=
    multiherm_of_isHermitian hinner
  have e1 : (X + U) * X⁻¹ * (X + U) = X + U + (U + U * (X⁻¹ * U)) := by
    calc (X + U) * X⁻¹ * (X + U) = (X * X⁻¹ + U * X⁻¹) * (X + U) := by
          rw [Matrix.add_mul]
      _ = (1 + U * X⁻¹) * (X + U) := by rw [Matrix.mul_nonsing_inv X hdet]
      _ = X + U + (U * X⁻¹ * X + U * X⁻¹ * U) := by
          rw [Matrix.add_mul, one_mul, Matrix.mul_add]
      _ = X + U + (U + U * (X⁻¹ * U)) := by
          rw [Matrix.mul_assoc U X⁻¹ X, Matrix.nonsing_inv_mul X hdet, mul_one,
            Matrix.mul_assoc]
  rw [hherm, hXU_H, e1, npSolve]
  ext i j
  simp only [Matrix.add_apply, Matrix.smul_apply, RCLike.real_smul_eq_coe_mul]
  push_cast
  ring

theorem pdRetraction_posDef {𝕜 : Type} [RCLike 𝕜] {n : ℕ}
    {X U : Matrix (Fin n) (Fin n) 𝕜} (hX : X.PosDef) (hU : U.IsHermitian) :
    (pdRetraction X U).PosDef := by
  classical
  rw [pdRetraction_eq_half_congruence hX hU]
  apply posDef_real_smul _ (by norm_num : (0:ℝ) < 2⁻¹)
  exact hX.add_posSemidef (Matrix.PosSemidef.mul_mul_conjTranspose_same
    hX.inv.posSemidef (X + U))

theorem posDef_det_eq_ofReal_re {𝕜 : Type} [RCLike 𝕜] {n : ℕ}
    {e : Matrix (Fin n) (Fin n) 𝕜} (he : e.PosDef) :
    e.det = ((RCLike.re e.det : ℝ) : 𝕜) ∧ 0 < RCLike.re e.det := by
  classical
  have h := RCLike.pos_iff.mp he.det_pos
  refine ⟨RCLike.ext ?_ ?_, h.1⟩
  · rw [RCLike.ofReal_re]
  · rw [RCLike.ofReal_im, h.2]

theorem detNormalize_spec {𝕜 : Type} [RCLike 𝕜] {n : ℕ} (hn : n ≠ 0)
    {e : Matrix (Fin n) (Fin n) 𝕜} (he : e.PosDef) :
    (detNormalize e).PosDef ∧ (detNormalize e).det = 1 := by
  classical
  obtain ⟨hdet_eq, hre⟩ := posDef_det_eq_ofReal_re he
  have hc : 0 < npDetRoot e := Real.rpow_pos_of_pos hre _
  refine ⟨posDef_real_smul he (inv_pos.mpr hc), ?_⟩
  have hsmul : detNormalize e = (((npDetRoot e)⁻¹ : ℝ) : 𝕜) • e := by
    ext i j
    simp only [detNormalize, Matrix.smul_apply, RCLike.real_smul_eq_coe_mul,
      smul_eq_mul]
  have hpow : ((npDetRoot e)⁻¹) ^ n * RCLike.re e.det = 1 := by
    rw [inv_pow, npDetRoot, Real.rpow_inv_natCast_pow hre.le hn,
      inv_mul_cancel₀ hre.ne']
  rw [hsmul, Matrix.det_smul, hdet_eq, Fintype.card_fin, ← RCLike.ofReal_pow,
    ← RCLike.ofReal_mul, hpow, RCLike.ofReal_one]

theorem pdRandomPoint_posDef {𝕜 : Type} [RCLike 𝕜] {n : ℕ}
    {q : Matrix (Fin n) (Fin n) 𝕜} {u : Fin n → ℝ}
    (hq : q * multihconj q = 1) (hu : ∀ i, 0 ≤ u i) :
    (pdRandomPoint q u).PosDef := by
  classical
  have hfact : pdRandomPoint q u
      = q * Matrix.diagonal (fun i => ((1 + u i : ℝ) : 𝕜)) * qᴴ := by
    have h : (Matrix.of fun i j => ((1 + u i : ℝ) : 𝕜) * multihconj q i j)
        = Matrix.diagonal (fun i => ((1 + u i : ℝ) : 𝕜)) * qᴴ := by
      ext i j
      rw [Matrix.of_apply, Matrix.diagonal_mul, multihconj]
    rw [pdRandomPoint, h, Matrix.mul_assoc]
  have hdiag : (Matrix.diagonal fun i => ((1 + u i : ℝ) : 𝕜)).PosDef := by
    apply Matrix.posDef_diagonal_iff.mpr
    intro i
    have h1 : (0 : ℝ) < 1 + u i := by have := hu i; linarith
    exact_mod_cast h1
  have hqu : IsUnit q := by
    apply (Matrix.isUnit_iff_isUnit_det q).mpr
    apply isUnit_of_mul_eq_one _ (multihconj q).det
    rw [← Matrix.det_mul, hq, Matrix.det_one]
  rw [hfact]
  exact posDef_mul_mul_conjTranspose hdiag hqu

theorem shpdProjection_isHermitian {𝕜 : Type} [RCLike 𝕜] {n : ℕ}
    {X : Matrix (Fin n) (Fin n) 𝕜} (hX : X.IsHermitian)
    (V : Matrix (Fin n) (Fin n) 𝕜) : (shpdProjection X V).IsHermitian := by
  show (shpdProjection X V)ᴴ = shpdProjection X V
  rw [shpdProjection, Matrix.conjTranspose_sub, conjTranspose_real_smul, hX.eq,
    (multiherm_isHermitian V).eq]

theorem shpdProjection_of_re_trace_zero {𝕜 : Type} [RCLike 𝕜] {n : ℕ}
    {X P : Matrix (Fin n) (Fin n) 𝕜} (hP : P.IsHermitian)
    (htr : RCLike.re (npSolve X P).trace = 0) : shpdProjection X P = P := by
  rw [shpdProjection, multiherm_of_isHermitian hP, htr, zero_div, zero_smul, sub_zero]

theorem re_trace_npSolve_shpdProjection {𝕜 : Type} [RCLike 𝕜] {n : ℕ} (hn : n ≠ 0)
    {X : Matrix (Fin n) (Fin n) 𝕜} (hdet : IsUnit X.det)
    (V : Matrix (Fin n) (Fin n) 𝕜) :
    RCLike.re (npSolve X (shpdProjection X V)).trace = 0 := by
  have hn0 : (n : ℝ) ≠ 0 := Nat.cast_ne_zero.mpr hn
  rw [shpdProjection, npSolve, Matrix.mul_sub, Matrix.mul_smul,
    Matrix.nonsing_inv_mul X hdet, Matrix.trace_sub, Matrix.trace_smul,
    Matrix.trace_one, map_sub, RCLike.smul_re, RCLike.natCast_re, ← npSolve,
    Fintype.card_fin, div_mul_cancel₀ _ hn0, sub_self]

theorem shpdProjection_idem {𝕜 : Type} [RCLike 𝕜] {n : ℕ}
    {X : Matrix (Fin n) (Fin n) 𝕜} (hX : X.PosDef)
    (V : Matrix (Fin n) (Fin n) 𝕜) :
    shpdProjection X (shpdProjection X V) = shpdProjection X V := by
  classical
  rcases Nat.eq_zero_or_pos n with h0 | hn
  · subst h0
    ext i j
    exact i.elim0
  have hdet : IsUnit X.det := (Matrix.isUnit_iff_isUnit_det X).mp hX.isUnit
  exact shpdProjection_of_re_trace_zero (shpdProjection_isHermitian hX.isHermitian V)
    (re_trace_npSolve_shpdProjection hn.ne' hdet V)

/-! ## The claims -/

/-- C1: the claim says `zero_vector(p)` returns the zero tangent vector of
the shape of `p` on every manifold and that `exp`/`retraction` at it give
back `p`; but `Positive.zero_vector` evaluates `np.zeros(*point.shape)`,
which passes the second shape entry as the dtype argument and so raises a
TypeError for every matrix-shaped point (first conjunct).  The remaining
conjuncts show that the intended zero tangent vector does satisfy
`exp(p, 0) = p` on the other operations, without any validity hypothesis. -/
theorem claim_C1_zero_vector_evidence :
    (∀ a b : ℕ, ∀ rest : List ℕ, positiveZeroVector (a :: b :: rest)
      = Except.error "Cannot interpret a Python int as a data type") ∧
    (∀ m n : ℕ, ∀ X : Matrix (Fin m) (Fin n) ℝ, positiveExp X 0 = X) ∧
    (∀ m n : ℕ, ∀ X : Matrix (Fin m) (Fin n) ℝ,
      obliqueExp X (obliqueZeroVector m n) = X) ∧
    (∀ n : ℕ, ∀ X : Matrix (Fin n) (Fin n) ℝ, pdExp X (pdZeroVector n) = X) ∧
    (∀ n : ℕ, ∀ X : Matrix (Fin n) (Fin n) ℂ, pdExp X (pdZeroVector n) = X) :=
  ⟨fun _ _ _ => rfl, fun _ _ X => positiveExp_zeroVector X,
    fun _ _ X => obliqueExp_zeroVector X, fun _ X => pdExp_zeroVector X,
    fun _ X => pdExp_zeroVector X⟩

/-- C2 counterexample: `Oblique.dist` clips the columnwise dot products
only from above (`XY[XY > 1] = 1`); at the concrete input with columns
`(1, 0)` and `(-2, 0)` the dot product `-2` passes the clip unchanged, so
the argument of `arccos` lies strictly below `-1`, outside the domain of
`arccos` — the claim that it is clipped into `[-1, 1]` is false. -/
theorem claim_C2_counterexample :
    obliqueDistArg !![(1 : ℝ); 0] !![(-2 : ℝ); 0] 0 < -1 := by
  have h : colDot !![(1 : ℝ); 0] !![(-2 : ℝ); 0] 0 = -2 := by
    norm_num [colDot, Fin.sum_univ_two]
  rw [obliqueDistArg, h, npClipHigh, if_neg (by norm_num)]
  norm_num

/-- C2 amended: in `Oblique.dist` the dot products are clipped only from
above, so the argument of `arccos` never exceeds `1`; it lies in
`[-1, 1]` exactly when the raw dot product is at least `-1` (dot products
that undershoot `-1` are passed through unclipped). -/
theorem claim_C2_amended :
    (∀ m n : ℕ, ∀ A B : Matrix (Fin m) (Fin n) ℝ, ∀ j,
      obliqueDistArg A B j ≤ 1) ∧
    (∀ m n : ℕ, ∀ A B : Matrix (Fin m) (Fin n) ℝ, ∀ j, -1 ≤ colDot A B j →
      -1 ≤ obliqueDistArg A B j ∧ obliqueDistArg A B j ≤ 1) := by
  have hle : ∀ x : ℝ, npClipHigh x ≤ 1 := by
    intro x
    rw [npClipHigh]
    split_ifs with h
    · exact le_refl 1
    · linarith [not_lt.mp h]
  have hlo : ∀ x : ℝ, -1 ≤ x → -1 ≤ npClipHigh x := by
    intro x hx
    rw [npClipHigh]
    split_ifs
    · norm_num
    · exact hx
  exact ⟨fun _ _ A B j => hle _,
    fun _ _ A B j hj => ⟨hlo _ hj, hle _⟩⟩

/-- C2 witness: at two equal one-column points the dot product is `1` and
the clipped arccos argument lies in `[-1, 1]`. -/
theorem claim_C2_witness :
    -1 ≤ obliqueDistArg !![(1 : ℝ)] !![(1 : ℝ)] 0 ∧
      obliqueDistArg !![(1 : ℝ)] !![(1 : ℝ)] 0 ≤ 1 :=
  claim_C2_amended.2 1 1 !![(1 : ℝ)] !![(1 : ℝ)] 0
    (by norm_num [colDot, Fin.sum_univ_one])

/-- C3: for every input,
`SpecialHermitianPositiveDefinite.euclidean_to_riemannian_hessian` fails
immediately and deterministically with the explicit `NotImplementedError`
signal, never returns a value, and that signal is distinct from the
numerical-linear-algebra failure. -/
theorem claim_C3_hessian_unsupported :
    (∀ n : ℕ, ∀ point eg eh tv : Matrix (Fin n) (Fin n) ℂ,
      shpdEuclideanToRiemannianHessian point eg eh tv
        = Except.error PyError.notImplementedError) ∧
    (∀ n : ℕ, ∀ point eg eh tv : Matrix (Fin n) (Fin n) ℂ,
      ∀ v, shpdEuclideanToRiemannianHessian point eg eh tv ≠ Except.ok v) ∧
    PyError.notImplementedError ≠ PyError.linAlgError :=
  ⟨fun _ _ _ _ _ => rfl, fun _ _ _ _ _ _ h => Except.noConfusion h,
    fun h => PyError.noConfusion h⟩

/-- C4 counterexample: `SpecialHermitianPositiveDefinite.transport` is not
the identity on its real domain.  The points `a = diag(2, 1/2)` and
`b = I` are both valid SHPD points (positive definite with unit
determinant, first two conjuncts), and `u = diag(1, -1/4)` is a genuine
tangent vector at `a`: it is Hermitian with `re trace(a⁻¹ u) = 0`, so the
SHPD projection at `a` fixes it (third conjunct).  Yet
`transport(a, b, u) = u - (3/8) I` differs from `u` (fourth conjunct). -/
theorem claim_C4_counterexample :
    shpdInvariant (Matrix.diagonal ![((2 : ℝ) : ℂ), ((2⁻¹ : ℝ) : ℂ)]) ∧
    shpdInvariant (1 : Matrix (Fin 2) (Fin 2) ℂ) ∧
    shpdProjection (Matrix.diagonal ![((2 : ℝ) : ℂ), ((2⁻¹ : ℝ) : ℂ)])
        (Matrix.diagonal ![((1 : ℝ) : ℂ), ((-(4⁻¹) : ℝ) : ℂ)])
      = Matrix.diagonal ![((1 : ℝ) : ℂ), ((-(4⁻¹) : ℝ) : ℂ)] ∧
    shpdTransport (Matrix.diagonal ![((2 : ℝ) : ℂ), ((2⁻¹ : ℝ) : ℂ)])
        (1 : Matrix (Fin 2) (Fin 2) ℂ)
        (Matrix.diagonal ![((1 : ℝ) : ℂ), ((-(4⁻¹) : ℝ) : ℂ)])
      ≠ Matrix.diagonal ![((1 : ℝ) : ℂ), ((-(4⁻¹) : ℝ) : ℂ)] := by
  set a : Matrix (Fin 2) (Fin 2) ℂ :=
    Matrix.diagonal ![((2 : ℝ) : ℂ), ((2⁻¹ : ℝ) : ℂ)] with ha
  set u : Matrix (Fin 2) (Fin 2) ℂ :=
    Matrix.diagonal ![((1 : ℝ) : ℂ), ((-(4⁻¹) : ℝ) : ℂ)] with hu
  have hUH : u.IsHermitian := by
    show uᴴ = u
    rw [hu, Matrix.diagonal_conjTranspose]
    have hstar : star ![((1 : ℝ) : ℂ), ((-(4⁻¹) : ℝ) : ℂ)]
        = ![((1 : ℝ) : ℂ), ((-(4⁻¹) : ℝ) : ℂ)] := by
      funext i
      fin_cases i <;> simp [Pi.star_apply, RCLike.star_def, Complex.conj_ofReal]
    rw [hstar]
  have hainv : a⁻¹ = Matrix.diagonal ![((2⁻¹ : ℝ) : ℂ), ((2 : ℝ) : ℂ)] := by
    apply Matrix.inv_eq_right_inv
    rw [ha, Matrix.diagonal_mul_diagonal]
    have hent : (fun i => (![((2 : ℝ) : ℂ), ((2⁻¹ : ℝ) : ℂ)] : Fin 2 → ℂ) i
        * (![((2⁻¹ : ℝ) : ℂ), ((2 : ℝ) : ℂ)] : Fin 2 → ℂ) i) = fun _ => (1 : ℂ) := by
      funext i
      fin_cases i <;> norm_num
    rw [hent, Matrix.diagonal_one]
  have hapd : a.PosDef := by
    rw [ha]
    apply Matrix.posDef_diagonal_iff.mpr
    intro i
    fin_cases i <;> exact Complex.zero_lt_real.mpr (by norm_num)
  have hadet : a.det = 1 := by
    rw [ha, Matrix.det_diagonal, Fin.prod_univ_two]
    norm_num
  have htra : RCLike.re (npSolve a u).trace = 0 := by
    rw [npSolve, hainv, hu, Matrix.diagonal_mul_diagonal, Matrix.trace_diagonal,
      Fin.sum_univ_two]
    norm_num
  have htangent : shpdProjection a u = u :=
    shpdProjection_of_re_trace_zero hUH htra
  have htrans : shpdTransport a 1 u
      = u - ((3 / 8 : ℝ)) • (1 : Matrix (Fin 2) (Fin 2) ℂ) := by
    rw [shpdTransport, pdProjection, multiherm_of_isHermitian hUH, shpdProjection,
      multiherm_of_isHermitian hUH, npSolve, inv_one, one_mul]
    have hcoef : RCLike.re u.trace / ((2 : ℕ) : ℝ) = 3 / 8 := by
      rw [hu, Matrix.trace_diagonal, Fin.sum_univ_two]
      norm_num
    rw [hcoef]
  have hne : u - ((3 / 8 : ℝ)) • (1 : Matrix (Fin 2) (Fin 2) ℂ) ≠ u := by
    intro h
    have hc := sub_eq_self.mp h
    rcases smul_eq_zero.mp
        (by exact_mod_cast congrFun (congrFun hc 0) 0 : (3 / 8 : ℝ) • (1 : ℂ) = 0)
      with h1 | h1
    · norm_num at h1
    · exact one_ne_zero h1
  exact ⟨⟨hapd, hadet⟩, ⟨Matrix.PosDef.one, by rw [Matrix.det_one]⟩, htangent,
    htrans ▸ hne⟩

/-- C4 amended: `transport` of the positive-definite base class (inherited
by `SymmetricPositiveDefinite` and `HermitianPositiveDefinite`) returns
the tangent vector unchanged, while `SpecialHermitianPositiveDefinite`
overrides it with the SHPD tangent-space projection at the destination
point of the Hermitian part of the carried vector. -/
theorem claim_C4_amended :
    (∀ n : ℕ, ∀ a b u : Matrix (Fin n) (Fin n) ℝ, pdTransport a b u = u) ∧
    (∀ n : ℕ, ∀ a b u : Matrix (Fin n) (Fin n) ℂ, pdTransport a b u = u) ∧
    (∀ n : ℕ, ∀ a b u : Matrix (Fin n) (Fin n) ℂ,
      shpdTransport a b u = shpdProjection b (multiherm u)) :=
  ⟨fun _ _ _ _ => rfl, fun _ _ _ _ => rfl, fun _ _ _ _ => rfl⟩

/-- C5: membership closure.  `random_point` satisfies each manifold's
invariant (as a function of the underlying random draw, with the
genericity the sampling procedure provides: nonzero columns of the
Gaussian draw for Oblique, a unitary QR factor and nonnegative uniforms
for the positive-definite family), and `exp` and `retraction` map a valid
point and a tangent vector at it back into the manifold.  The
positive-definite statements are given over `ℝ` (`SymmetricPositiveDefinite`)
and over `ℂ` (`HermitianPositiveDefinite`); the final three conjuncts are
the unit-determinant closure for `SpecialHermitianPositiveDefinite`. -/
theorem claim_C5_membership_closure :
    (∀ m n : ℕ, ∀ D : Matrix (Fin m) (Fin n) ℝ, (∀ j, colNorm D j ≠ 0) →
      obliqueInvariant (obliqueRandomPoint D)) ∧
    (∀ m n : ℕ, ∀ X U : Matrix (Fin m) (Fin n) ℝ, obliqueInvariant X →
      obliqueIsTangent X U → obliqueInvariant (obliqueExp X U)) ∧
    (∀ m n : ℕ, ∀ X U : Matrix (Fin m) (Fin n) ℝ, obliqueInvariant X →
      obliqueIsTangent X U → obliqueInvariant (obliqueRetraction X U)) ∧
    (∀ m n : ℕ, ∀ G : Matrix (Fin m) (Fin n) ℝ,
      positiveInvariant (positiveRandomPoint G)) ∧
    (∀ m n : ℕ, ∀ X U : Matrix (Fin m) (Fin n) ℝ, positiveInvariant X →
      positiveInvariant (positiveExp X U)) ∧
    (∀ m n : ℕ, ∀ X U : Matrix (Fin m) (Fin n) ℝ, positiveInvariant X →
      positiveInvariant (positiveRetraction X U)) ∧
    (∀ n : ℕ, ∀ q : Matrix (Fin n) (Fin n) ℝ, ∀ u : Fin n → ℝ,
      q * multitransp q = 1 → (∀ i, 0 ≤ u i) → pdInvariant (pdBaseRandomPoint q u)) ∧
    (∀ n : ℕ, ∀ q : Matrix (Fin n) (Fin n) ℂ, ∀ u : Fin n → ℝ,
      q * multihconj q = 1 → (∀ i, 0 ≤ u i) → pdInvariant (pdRandomPoint q u)) ∧
    (∀ n : ℕ, ∀ X U : Matrix (Fin n) (Fin n) ℝ, pdInvariant X → U.IsHermitian →
      pdInvariant (pdExp X U)) ∧
    (∀ n : ℕ, ∀ X U : Matrix (Fin n) (Fin n) ℂ, pdInvariant X → U.IsHermitian →
      pdInvariant (pdExp X U)) ∧
    (∀ n : ℕ, ∀ X U : Matrix (Fin n) (Fin n) ℝ, pdInvariant X → U.IsHermitian →
      pdInvariant (pdRetraction X U)) ∧
    (∀ n : ℕ, ∀ X U : Matrix (Fin n) (Fin n) ℂ, pdInvariant X → U.IsHermitian →
      pdInvariant (pdRetraction X U)) ∧
    (∀ n : ℕ, n ≠ 0 → ∀ q : Matrix (Fin n) (Fin n) ℂ, ∀ u : Fin n → ℝ,
      q * multihconj q = 1 → (∀ i, 0 ≤ u i) →
      shpdInvariant (shpdRandomPoint q u)) ∧
    (∀ n : ℕ, n ≠ 0 → ∀ X U : Matrix (Fin n) (Fin n) ℂ, pdInvariant X →
      U.IsHermitian → shpdInvariant (shpdExp X U)) ∧
    (∀ n : ℕ, n ≠ 0 → ∀ X U : Matrix (Fin n) (Fin n) ℂ, pdInvariant X →
      U.IsHermitian → shpdInvariant (shpdRetraction X U)) := by
  refine ⟨fun m n D h => normalizeColumns_obliqueInvariant h,
    fun m n X U hX hU => obliqueExp_invariant hX hU,
    fun m n X U hX hU => obliqueRetraction_invariant hX hU,
    fun m n G => positiveRandomPoint_invariant G,
    fun m n X U hX => positiveExp_invariant hX U,
    fun m n X U hX => positiveExp_invariant hX U,
    fun n q u hq hu => ?_,
    fun n q u hq hu => pdRandomPoint_posDef hq hu,
    fun n X U hX hU => pdExp_posDef hX hU,
    fun n X U hX hU => pdExp_posDef hX hU,
    fun n X U hX hU => pdRetraction_posDef hX hU,
    fun n X U hX hU => pdRetraction_posDef hX hU,
    fun n hn q u hq hu => detNormalize_spec hn (pdRandomPoint_posDef hq hu),
    fun n hn X U hX hU => detNormalize_spec hn (pdExp_posDef hX hU),
    fun n hn X U hX hU => detNormalize_spec hn (pdRetraction_posDef hX hU)⟩
  rw [multitransp_eq_multihconj_real] at hq
  rw [pdInvariant, pdBaseRandomPoint_eq_real]
  exact pdRandomPoint_posDef hq hu

/-- C5 witness: the unit-determinant closure of the SHPD exponential,
instantiated at the `1 × 1` identity point and the zero tangent vector. -/
theorem claim_C5_witness :
    shpdInvariant (shpdExp (1 : Matrix (Fin 1) (Fin 1) ℂ) 0) :=
  claim_C5_membership_closure.2.2.2.2.2.2.2.2.2.2.2.2.2.1 1 one_ne_zero 1 0
    Matrix.PosDef.one Matrix.isHermitian_zero

/-- C6: projection is idempotent on every manifold — the Oblique
per-column radial projection at a valid (unit-column) point, the identity
projection of the Positive manifold, the Hermitian-part projection of the
positive-definite base class (over `ℝ` and `ℂ`), and the trace-removing
projection of `SpecialHermitianPositiveDefinite` at a valid (positive
definite) point. -/
theorem claim_C6_projection_idempotent :
    (∀ m n : ℕ, ∀ X V : Matrix (Fin m) (Fin n) ℝ, obliqueInvariant X →
      obliqueProjection X (obliqueProjection X V) = obliqueProjection X V) ∧
    (∀ m n : ℕ, ∀ X V : Matrix (Fin m) (Fin n) ℝ,
      positiveProjection X (positiveProjection X V) = positiveProjection X V) ∧
    (∀ n : ℕ, ∀ X V : Matrix (Fin n) (Fin n) ℝ,
      pdProjection X (pdProjection X V) = pdProjection X V) ∧
    (∀ n : ℕ, ∀ X V : Matrix (Fin n) (Fin n) ℂ,
      pdProjection X (pdProjection X V) = pdProjection X V) ∧
    (∀ n : ℕ, ∀ X V : Matrix (Fin n) (Fin n) ℂ, X.PosDef →
      shpdProjection X (shpdProjection X V) = shpdProjection X V) :=
  ⟨fun m n X V hX => obliqueProjection_idem hX V,
    fun _ _ _ _ => rfl,
    fun n X V => pdProjection_idem X V,
    fun n X V => pdProjection_idem X V,
    fun n X V hX => shpdProjection_idem hX V⟩

/-- C6 witness: idempotence of the SHPD projection at the `1 × 1`
identity point applied to the zero ambient vector. -/
theorem claim_C6_witness :
    shpdProjection (1 : Matrix (Fin 1) (Fin 1) ℂ) (shpdProjection 1 0)
      = shpdProjection 1 0 :=
  claim_C6_projection_idempotent.2.2.2.2 1 1 0 Matrix.PosDef.one

/-- C7 counterexample: constructing `SpecialHermitianPositiveDefinite`
does not succeed at `n = 2`, `k = 1`: the constructor runs the assignment
`self.dim = int(k * n * (n + 1) - k)` against the read-only `dim`
property of the immutable descriptor and fails with an AttributeError, so
no descriptor is returned at all. -/
theorem claim_C7_counterexample :
    specialHermitianPositiveDefiniteInit 2 1 = Except.error PyError.attributeError ∧
      (∀ d : ManifoldDescriptor,
        specialHermitianPositiveDefiniteInit 2 1 ≠ Except.ok d) :=
  ⟨rfl, fun _ h => Except.noConfusion h⟩

/-- C7 amended: the SHPD constructor always fails with an AttributeError
(assignment to the read-only `dim` property); the base constructor had
stored the HPD dimension `k * n * (n + 1)`, and the value the SHPD
constructor attempts to assign is `k * n * (n + 1) - k`, one degree of
freedom below it per product index (for `n ≥ 1`). -/
theorem claim_C7_amended :
    (∀ n k : ℕ, specialHermitianPositiveDefiniteInit n k
      = Except.error PyError.attributeError) ∧
    (∀ n k : ℕ, (hermitianPositiveDefiniteInit n k).dim = k * n * (n + 1)) ∧
    (∀ n k : ℕ, 1 ≤ n → shpdAssignedDim n k + k = k * n * (n + 1)) := by
  refine ⟨fun _ _ => rfl, fun _ _ => rfl, fun n k hn => ?_⟩
  have h1 : 1 * 1 ≤ n * (n + 1) := Nat.mul_le_mul hn (by omega)
  have hk : k ≤ k * n * (n + 1) := by
    calc k = k * (1 * 1) := by ring
      _ ≤ k * (n * (n + 1)) := Nat.mul_le_mul_left k h1
      _ = k * n * (n + 1) := by ring
  exact Nat.sub_add_cancel hk

/-- C7 witness: at `n = 2`, `k = 1` the attempted dimension `5` is one
below the HPD dimension `6`. -/
theorem claim_C7_witness : shpdAssignedDim 2 1 + 1 = 1 * 2 * (2 + 1) :=
  claim_C7_amended.2.2 2 1 (by norm_num)

/-- C8: at a unit-column point `X`, every column of the Oblique projection
of any ambient vector is orthogonal to the matching column of `X`, and
hence so is every column of `random_tangent_vector` (the normalized
projection of the underlying draw). -/
theorem claim_C8_tangent_orthogonality :
    (∀ m n : ℕ, ∀ X V : Matrix (Fin m) (Fin n) ℝ, obliqueInvariant X →
      ∀ j, colDot X (obliqueProjection X V) j = 0) ∧
    (∀ m n : ℕ, ∀ X D : Matrix (Fin m) (Fin n) ℝ, obliqueInvariant X →
      ∀ j, colDot X (obliqueRandomTangentVector X D) j = 0) :=
  ⟨fun m n X V hX j => colDot_obliqueProjection_eq_zero hX V j,
    fun m n X D hX j => colDot_obliqueRandomTangentVector hX D j⟩

/-- C8 witness: orthogonality at the concrete `1 × 1` unit-column point
`(1)` and ambient vector `(5)`. -/
theorem claim_C8_witness :
    colDot !![(1 : ℝ)] (obliqueProjection !![(1 : ℝ)] !![(5 : ℝ)]) 0 = 0 :=
  claim_C8_tangent_orthogonality.1 1 1 !![(1 : ℝ)] !![(5 : ℝ)]
    (fun j => by norm_num [colNorm, Fin.sum_univ_one]) 0

/-- C10: `Oblique.transport(a, b, u)` is exactly the orthogonal projection
of `u` onto the tangent space at the destination point `b`, and therefore
its columns are orthogonal to the columns of `b` whenever `b` has
unit-norm columns. -/
theorem claim_C10_transport_eq_projection :
    (∀ m n : ℕ, ∀ a b u : Matrix (Fin m) (Fin n) ℝ,
      obliqueTransport a b u = obliqueProjection b u) ∧
    (∀ m n : ℕ, ∀ a b u : Matrix (Fin m) (Fin n) ℝ, obliqueInvariant b →
      ∀ j, colDot b (obliqueTransport a b u) j = 0) :=
  ⟨fun _ _ _ _ _ => rfl,
    fun m n a b u hb j => colDot_obliqueProjection_eq_zero hb u j⟩

/-- C10 witness: transport into the concrete `1 × 1` unit-column point
`(1)` is orthogonal to it. -/
theorem claim_C10_witness :
    colDot !![(1 : ℝ)] (obliqueTransport !![(3 : ℝ)] !![(1 : ℝ)] !![(7 : ℝ)]) 0 = 0 :=
  claim_C10_transport_eq_projection.2 1 1 !![(3 : ℝ)] !![(1 : ℝ)] !![(7 : ℝ)]
    (fun j => by norm_num [colNorm, Fin.sum_univ_one]) 0

end

